import Mathlib

/-!
Verification development for the geneviz interval-stacking layout engine.

The definitions below are a shallow embedding of the Python source:

* geneviz/tracks/feature.py        : stack, _stack, _pack_ffdh
* geneviz/tracks/annotation/base.py: StackedTrack._stack, pack_ffdh
* geneviz/util/misc.py             : merge_intervals
* geneviz/util/genomic.py          : GenomicIntervalTree, merge_intervals

Genomic coordinates are modelled as integers and heights/offsets as
rationals (the Python code uses floats; no claim under consideration
depends on rounding, and NaN never arises in the modelled fragment).
Python exceptions (ValueError raised by the intervaltree package on null
intervals, IndexError, KeyError) are modelled with Except String.
-/

deriving instance DecidableEq for Except

namespace Geneviz

/-- An object passed to the packer: feature.py accesses the fields
Index, start, end and height of each row tuple.  The field stop stands
for the Python field end, which is a reserved word in Lean. -/
structure Obj where
  idx : Nat
  start : Int
  stop : Int
  height : Rat
deriving DecidableEq, Repr

/-- Embedding of IntervalTree.overlaps(begin, end) from the intervaltree
package: true when some stored interval [s, e) intersects the half-open
query range [b, e0); a null query range (b >= e0) overlaps nothing.
A level is modelled as the list of objects it contains, in insertion
order. -/
def levelOverlaps (level : List Obj) (b e0 : Int) : Bool :=
  if e0 ≤ b then false
  else level.any fun m => decide (m.start < e0) && decide (b < m.stop)

/-- Embedding of IntervalTree.addi(start, end, obj): the intervaltree
package raises ValueError on a null interval (start >= end); otherwise
the interval is inserted. -/
def addi (level : List Obj) (o : Obj) : Except String (List Obj) :=
  if o.stop ≤ o.start then .error "ValueError" else .ok (level ++ [o])

/-- Embedding of IntervalTree.from_tuples([(start, end, obj)]) used to
create a fresh level holding a single object; raises ValueError on a
null interval exactly as addi does. -/
def fromTuplesLevel (o : Obj) : Except String (List Obj) :=
  if o.stop ≤ o.start then .error "ValueError" else .ok [o]

/-- Embedding of the inner placement loop shared by _pack_ffdh
(feature.py) and pack_ffdh (annotation/base.py): scan the existing
levels in creation order and insert the object into the first level
whose occupancy does not overlap its span; ok none means no level
accepted the object. -/
def placeInLevels (o : Obj) : List (List Obj) → Except String (Option (List (List Obj)))
  | [] => .ok none
  | L :: rest =>
    if levelOverlaps L o.start o.stop then
      match placeInLevels o rest with
      | .error e => .error e
      | .ok none => .ok none
      | .ok (some rest2) => .ok (some (L :: rest2))
    else
      match addi L o with
      | .error e => .error e
      | .ok L2 => .ok (some (L2 :: rest))

/-- Embedding of one iteration of the packing loop: try to place the
object in an existing level, otherwise append a new level containing
just this object and record its height in level_heights. -/
def packStep (st : List (List Obj) × List Rat) (o : Obj) :
    Except String (List (List Obj) × List Rat) :=
  match placeInLevels o st.1 with
  | .error e => .error e
  | .ok (some levels2) => .ok (levels2, st.2)
  | .ok none =>
    match fromTuplesLevel o with
    | .error e => .error e
    | .ok newLevel => .ok (st.1 ++ [newLevel], st.2 ++ [o.height])

/-- Embedding of the for-loop over the sorted objects in both packers. -/
def packLoop : List Obj → List (List Obj) × List Rat →
    Except String (List (List Obj) × List Rat)
  | [], st => .ok st
  | o :: rest, st =>
    match packStep st o with
    | .error e => .error e
    | .ok st2 => packLoop rest st2

/-- Sort key relation of _pack_ffdh (feature.py): Python sorts ascending
by the tuple (obj.height, obj.end - obj.start), compared
lexicographically, and then reverses the list. -/
def keyLe (a b : Obj) : Prop :=
  a.height < b.height ∨ (a.height = b.height ∧ a.stop - a.start ≤ b.stop - b.start)

instance : DecidableRel keyLe := fun a b => by
  unfold keyLe; infer_instance

instance : IsTotal Obj keyLe where
  total a b := by
    rcases lt_trichotomy a.height b.height with h | h | h
    · exact Or.inl (Or.inl h)
    · rcases le_total (a.stop - a.start) (b.stop - b.start) with h2 | h2
      · exact Or.inl (Or.inr ⟨h, h2⟩)
      · exact Or.inr (Or.inr ⟨h.symm, h2⟩)
    · exact Or.inr (Or.inl h)

instance : IsTrans Obj keyLe where
  trans a b c hab hbc := by
    rcases hab with h1 | ⟨h1, h1s⟩ <;> rcases hbc with h2 | ⟨h2, h2s⟩
    · exact Or.inl (h1.trans h2)
    · exact Or.inl (h2 ▸ h1)
    · exact Or.inl (h1 ▸ h2)
    · exact Or.inr ⟨h1.trans h2, h1s.trans h2s⟩

/-- Sort key relation of pack_ffdh (annotation/base.py): Python sorts
ascending by attrgetter height alone and then reverses the list. -/
def heightLe (a b : Obj) : Prop := a.height ≤ b.height

instance : DecidableRel heightLe := fun a b => by
  unfold heightLe; infer_instance

instance : IsTotal Obj heightLe where
  total a b := le_total a.height b.height

instance : IsTrans Obj heightLe where
  trans _ _ _ hab hbc := le_trans hab hbc

/-- Processing order of _pack_ffdh (feature.py): stable ascending sort
by (height, span) followed by list reversal (objects[::-1]). -/
def processOrder (objs : List Obj) : List Obj :=
  (List.insertionSort keyLe objs).reverse

/-- Processing order of pack_ffdh (annotation/base.py): stable ascending
sort by height alone followed by list reversal. -/
def processOrderBase (objs : List Obj) : List Obj :=
  (List.insertionSort heightLe objs).reverse

/-- Embedding of _pack_ffdh from feature.py. -/
def packFFDH (objs : List Obj) : Except String (List (List Obj) × List Rat) :=
  packLoop (processOrder objs) ([], [])

/-- Embedding of pack_ffdh from annotation/base.py, which differs from
_pack_ffdh only in its sort key (height alone, no span tie-break). -/
def packFFDHBase (objs : List Obj) : Except String (List (List Obj) × List Rat) :=
  packLoop (processOrderBase objs) ([], [])

/-- Embedding of np.cumsum on a list of rationals: element k is the sum
of elements 0..k of the input. -/
def cumsum (l : List Rat) : List Rat :=
  (l.scanl (· + ·) 0).tail

/-- Offset formula of _stack (feature.py):
level_offsets = np.cumsum(level_heights) - level_heights[0]
followed by level_offsets += np.arange(1, n + 1) * spacing.
The indexing expression level_heights[0] is modelled by headD; on an
empty list the Python code raises IndexError, which featureStack below
models before reaching this formula. -/
def offsetsA (hs : List Rat) (spacing : Rat) : List Rat :=
  (cumsum hs).mapIdx fun k c => c - hs.headD 0 + ((k : Rat) + 1) * spacing

/-- Offset formula of StackedTrack._stack (annotation/base.py):
level_cumsum = np.hstack([0, np.cumsum(level_heights)[:-1]]) and
level_offsets = level_cumsum + (np.arange(n) + 1) * spacing. -/
def stackedOffsets (hs : List Rat) (spacing : Rat) : List Rat :=
  (0 :: (cumsum hs).dropLast).mapIdx fun k c => c + ((k : Rat) + 1) * spacing

/-- Embedding of the row-collection loop shared by both stacking
functions: for every level paired (by zip) with its offset, emit one
(object index, offset) pair per member object. -/
def assignRows (levels : List (List Obj)) (offs : List Rat) : List (Nat × Rat) :=
  (levels.zip offs).flatMap fun p => p.1.map fun o => (o.idx, p.2)

/-- Embedding of _stack from feature.py (the label-measurement branch is
outside the modelled fragment; claims about it are not considered).
On an empty packing the source raises IndexError at level_heights[0]
(and would subsequently fail at zip(*rows) on an empty rows list). -/
def featureStack (data : List Obj) (spacing : Rat) : Except String (List (Nat × Rat)) :=
  match packFFDH data with
  | .error e => .error e
  | .ok (levels, hts) =>
    match hts with
    | [] => .error "IndexError"
    | _ :: _ => .ok (assignRows levels (offsetsA hts spacing))

/-- Embedding of StackedTrack._stack from annotation/base.py: pack the
bounding boxes with pack_ffdh, compute stackedOffsets, and yield
(actor, offset) pairs; actors are identified by their idx field here. -/
def stackedStack (actors : List Obj) (spacing : Rat) : Except String (List (Nat × Rat)) :=
  match packFFDHBase actors with
  | .error e => .error e
  | .ok (levels, hts) => .ok (assignRows levels (stackedOffsets hts spacing))

/-- A row of the dataframe handed to stack (feature.py) when a group
column is present: grp models the value of the group column. -/
structure Row where
  idx : Nat
  grp : Nat
  start : Int
  stop : Int
  height : Rat
deriving DecidableEq, Repr

/-- Conversion of a dataframe row to a packer object (itertuples). -/
def Row.toObj (r : Row) : Obj :=
  { idx := r.idx, start := r.start, stop := r.stop, height := r.height }

/-- Group keys produced by pandas groupby: the distinct values of the
group column, in ascending sorted order. -/
def groupKeys (data : List Row) : List Nat :=
  List.insertionSort (· ≤ ·) (data.map (·.grp)).dedup

/-- Members of one group. -/
def groupMembers (data : List Row) (k : Nat) : List Row :=
  data.filter fun r => decide (r.grp = k)

/-- Representative interval of one group, from the aggregation
agg_funcs = (start: min, end: max, height: max) in stack (feature.py);
the group key becomes the Index of the aggregated row.  The empty match
arm is unreachable: pandas groupby only emits non-empty groups, and
repOf is only applied to keys occurring in the data. -/
def repOf (data : List Row) (k : Nat) : Obj :=
  match groupMembers data k with
  | [] => { idx := k, start := 0, stop := 0, height := 0 }
  | m :: ms =>
    { idx := k
      start := ms.foldl (fun acc r => min acc r.start) m.start
      stop := ms.foldl (fun acc r => max acc r.stop) m.stop
      height := ms.foldl (fun acc r => max acc r.height) m.height }

/-- Representative intervals for all groups, in groupby key order. -/
def repsOf (data : List Row) : List Obj :=
  (groupKeys data).map (repOf data)

/-- Embedding of the pandas merge on the group column that broadcasts
the y value computed for a group to every row of that group: each row
looks up the first (and only) entry of the packed-representatives
result that carries its group key. -/
def lookupY (repYs : List (Nat × Rat)) (k : Nat) : Rat :=
  match repYs.find? fun p => decide (p.1 = k) with
  | none => 0
  | some p => p.2

/-- Embedding of the grouped branch of stack (feature.py): aggregate
each group to its representative, stack the representatives (forwarding
spacing), then merge the resulting y offsets back onto the rows by
group key. -/
def stackGrouped (data : List Row) (spacing : Rat) : Except String (List (Nat × Rat)) :=
  match featureStack (repsOf data) spacing with
  | .error e => .error e
  | .ok repYs => .ok (data.map fun r => (r.idx, lookupY repYs r.grp))

/-- Embedding of the top-level stack (feature.py).  The group argument
is modelled as a Bool (column present or not).  In the ungrouped branch
the source calls _stack without the spacing argument, so _stack uses
its default spacing of 0.05. -/
def stack (data : List Row) (group : Bool) (spacing : Rat) :
    Except String (List (Nat × Rat)) :=
  if group then stackGrouped data spacing
  else featureStack (data.map Row.toObj) (5 / 100)

/-- Sweep loop of merge_intervals (util/misc.py and util/genomic.py):
low and high are the bounds of the current run of merges. -/
def mergeSweep (low high : Int) : List (Int × Int) → List (Int × Int)
  | [] => [(low, high)]
  | iv :: rest =>
    if iv.1 ≤ high then mergeSweep low (max high iv.2) rest
    else (low, high) :: mergeSweep iv.1 iv.2 rest

/-- Embedding of merge_intervals: sort the pairs by their first
component (Python sorted with key itemgetter(0), a stable sort), then
sweep; empty input yields the empty sequence. -/
def merge_intervals (intervals : List (Int × Int)) : List (Int × Int) :=
  match List.insertionSort (fun a b : Int × Int => a.1 ≤ b.1) intervals with
  | [] => []
  | first :: rest => mergeSweep first.1 first.2 rest

/-- A stored genomic interval: (start, end, payload index). -/
abbrev GTuple := Int × Int × Nat

/-- Embedding of itertools.groupby on the chromosome key: consecutive
runs of tuples sharing a chromosome become one group. -/
def groupByChrom : List (String × GTuple) → List (String × List GTuple)
  | [] => []
  | (c, t) :: rest =>
    match groupByChrom rest with
    | [] => [(c, [t])]
    | (c2, g) :: gs =>
      if c = c2 then (c, t :: g) :: gs else (c, [t]) :: (c2, g) :: gs

/-- Embedding of a Python dict assignment trees[chrom] = tree: replace
the entry if the key is present, else append it. -/
def dictSet (d : List (String × List GTuple)) (k : String) (v : List GTuple) :
    List (String × List GTuple) :=
  match d with
  | [] => [(k, v)]
  | (k2, v2) :: rest =>
    if k = k2 then (k, v) :: rest else (k2, v2) :: dictSet rest k v

/-- Embedding of GenomicIntervalTree.from_tuples (util/genomic.py):
group the tuples by chromosome and build one tree per group, storing
the trees in a dict keyed by chromosome. -/
def fromTuples (tuples : List (String × GTuple)) : List (String × List GTuple) :=
  (groupByChrom tuples).foldl (fun d p => dictSet d p.1 p.2) []

/-- Embedding of IntervalTree.search(begin, end): all stored intervals
overlapping the half-open range [b, e0). -/
def treeSearch (tree : List GTuple) (b e0 : Int) : List GTuple :=
  if e0 ≤ b then []
  else tree.filter fun t => decide (t.1 < e0) && decide (b < t.2.1)

/-- Embedding of GenomicIntervalTree.search (util/genomic.py): the
expression self._trees[chromosome] raises KeyError when the chromosome
is not a key of the dict; otherwise the per-chromosome tree is
searched. -/
def gitSearch (trees : List (String × List GTuple)) (c : String) (b e0 : Int) :
    Except String (List GTuple) :=
  match trees.find? fun kv => decide (kv.1 = c) with
  | none => .error "KeyError"
  | some kv => .ok (treeSearch kv.2 b e0)

/-! ## Packer invariants -/

/-- Two objects have non-overlapping half-open spans [start, stop). -/
def noOverlap (a b : Obj) : Prop := a.stop ≤ b.start ∨ b.stop ≤ a.start

theorem noOverlap_symm : Symmetric noOverlap := fun _ _ h => h.symm

theorem addi_ok {L L2 : List Obj} {o : Obj} (h : addi L o = .ok L2) :
    L2 = L ++ [o] ∧ o.start < o.stop := by
  by_cases hc : o.stop ≤ o.start
  · simp [addi, hc] at h
  · simp [addi, hc] at h
    exact ⟨h.symm, lt_of_not_le hc⟩

theorem fromTuplesLevel_ok {L : List Obj} {o : Obj} (h : fromTuplesLevel o = .ok L) :
    L = [o] ∧ o.start < o.stop := by
  by_cases hc : o.stop ≤ o.start
  · simp [fromTuplesLevel, hc] at h
  · simp [fromTuplesLevel, hc] at h
    exact ⟨h.symm, lt_of_not_le hc⟩

theorem levelOverlaps_false {L : List Obj} {o : Obj} (hlt : o.start < o.stop)
    (h : levelOverlaps L o.start o.stop = false) :
    ∀ m ∈ L, noOverlap m o := by
  intro m hm
  unfold levelOverlaps at h
  rw [if_neg (not_le.mpr hlt)] at h
  rw [List.any_eq_false] at h
  have hmo := h m hm
  simp only [Bool.and_eq_true, decide_eq_true_eq, not_and, not_lt] at hmo
  unfold noOverlap
  omega

theorem pairwise_append_single {L : List Obj} {o : Obj}
    (hL : L.Pairwise noOverlap) (ho : ∀ m ∈ L, noOverlap m o) :
    (L ++ [o]).Pairwise noOverlap := by
  rw [List.pairwise_append]
  exact ⟨hL, List.pairwise_singleton _ _, fun a ha b hb => by
    rw [List.mem_singleton] at hb
    exact hb ▸ ho a ha⟩

theorem placeInLevels_pairwise {o : Obj} :
    ∀ {levels levels2 : List (List Obj)},
      placeInLevels o levels = .ok (some levels2) →
      (∀ L ∈ levels, L.Pairwise noOverlap) →
      ∀ L ∈ levels2, L.Pairwise noOverlap := by
  intro levels
  induction levels with
  | nil => intro levels2 h _; simp [placeInLevels] at h
  | cons L rest ih =>
    intro levels2 h hinv
    simp only [placeInLevels] at h
    by_cases hov : levelOverlaps L o.start o.stop
    · rw [if_pos hov] at h
      cases hre : placeInLevels o rest with
      | error e => rw [hre] at h; exact absurd h (by simp)
      | ok oval =>
        cases oval with
        | none => rw [hre] at h; exact absurd h (by simp)
        | some rest2 =>
          rw [hre] at h
          simp only [Except.ok.injEq, Option.some.injEq] at h
          subst h
          intro M hM
          rcases List.mem_cons.mp hM with hML | hMr
          · exact hML ▸ hinv L (List.mem_cons_self L rest)
          · exact ih hre (fun N hN => hinv N (List.mem_cons_of_mem _ hN)) M hMr
    · rw [if_neg hov] at h
      cases hadd : addi L o with
      | error e => rw [hadd] at h; exact absurd h (by simp)
      | ok L2 =>
        rw [hadd] at h
        simp only [Except.ok.injEq, Option.some.injEq] at h
        subst h
        obtain ⟨hL2, hlt⟩ := addi_ok hadd
        intro M hM
        rcases List.mem_cons.mp hM with hML | hMr
        · subst hML
          rw [hL2]
          exact pairwise_append_single (hinv L (List.mem_cons_self L rest))
            (levelOverlaps_false hlt (Bool.of_not_eq_true hov))
        · exact hinv M (List.mem_cons_of_mem _ hMr)

theorem packStep_pairwise {st st2 : List (List Obj) × List Rat} {o : Obj}
    (h : packStep st o = .ok st2)
    (hinv : ∀ L ∈ st.1, L.Pairwise noOverlap) :
    ∀ L ∈ st2.1, L.Pairwise noOverlap := by
  unfold packStep at h
  cases hp : placeInLevels o st.1 with
  | error e => rw [hp] at h; exact absurd h (by simp)
  | ok oval =>
    cases oval with
    | some levels2 =>
      rw [hp] at h
      simp only [Except.ok.injEq] at h
      subst h
      exact placeInLevels_pairwise hp hinv
    | none =>
      rw [hp] at h
      cases hf : fromTuplesLevel o with
      | error e => rw [hf] at h; exact absurd h (by simp)
      | ok newLevel =>
        rw [hf] at h
        simp only [Except.ok.injEq] at h
        subst h
        obtain ⟨hN, _⟩ := fromTuplesLevel_ok hf
        intro L hL
        rcases List.mem_append.mp hL with hL1 | hL2
        · exact hinv L hL1
        · rw [List.mem_singleton] at hL2
          subst hL2
          rw [hN]
          exact List.pairwise_singleton _ _

theorem packLoop_pairwise :
    ∀ {l : List Obj} {st st2 : List (List Obj) × List Rat},
      packLoop l st = .ok st2 →
      (∀ L ∈ st.1, L.Pairwise noOverlap) →
      ∀ L ∈ st2.1, L.Pairwise noOverlap := by
  intro l
  induction l with
  | nil =>
    intro st st2 h hinv
    simp only [packLoop, Except.ok.injEq] at h
    exact h ▸ hinv
  | cons o rest ih =>
    intro st st2 h hinv
    simp only [packLoop] at h
    cases hs : packStep st o with
    | error e => rw [hs] at h; exact absurd h (by simp)
    | ok stmid =>
      rw [hs] at h
      exact ih h (packStep_pairwise hs hinv)

/-- C1: in any packing returned by either FFDH packer, any two distinct
intervals assigned to the same level have non-overlapping half-open
spans: the end of one of them is at most the start of the other. -/
theorem C1_no_overlap (objs : List Obj) (levels : List (List Obj)) (hts : List Rat)
    (h : packFFDH objs = .ok (levels, hts) ∨ packFFDHBase objs = .ok (levels, hts)) :
    ∀ L ∈ levels, ∀ a ∈ L, ∀ b ∈ L, a ≠ b →
      a.stop ≤ b.start ∨ b.stop ≤ a.start := by
  have hPW : ∀ L ∈ levels, L.Pairwise noOverlap := by
    rcases h with h | h
    · exact packLoop_pairwise h (by intro L hL; simp at hL)
    · exact packLoop_pairwise h (by intro L hL; simp at hL)
  intro L hL a ha b hb hne
  exact (hPW L hL).forall noOverlap_symm ha hb hne

/-- Witness for C1 at a concrete input: two touching intervals [0,10)
and [10,20) end up in one shared level and satisfy the non-overlap
disjunction. -/
theorem C1_no_overlap_witness :
    (⟨1, 10, 20, 1⟩ : Obj).stop ≤ (⟨0, 0, 10, 1⟩ : Obj).start ∨
    (⟨0, 0, 10, 1⟩ : Obj).stop ≤ (⟨1, 10, 20, 1⟩ : Obj).start :=
  C1_no_overlap [⟨0, 0, 10, 1⟩, ⟨1, 10, 20, 1⟩]
    [[⟨1, 10, 20, 1⟩, ⟨0, 0, 10, 1⟩]] [1]
    (Or.inl (by decide))
    [⟨1, 10, 20, 1⟩, ⟨0, 0, 10, 1⟩] (by simp)
    ⟨1, 10, 20, 1⟩ (by simp)
    ⟨0, 0, 10, 1⟩ (by simp)
    (by decide)

/-! ## Processing order and first-fit placement (C4) -/

/-- Decreasing order on the feature.py sort key (height, span). -/
def keyGe (a b : Obj) : Prop := keyLe b a

instance : DecidableRel keyGe := fun a b => by
  unfold keyGe; infer_instance

/-- Decreasing order on the annotation/base.py sort key (height only). -/
def heightGe (a b : Obj) : Prop := heightLe b a

instance : DecidableRel heightGe := fun a b => by
  unfold heightGe; infer_instance

/-- Specification-style first-fit placement: the target index is the
number of leading levels that all overlap the object (so the first
non-overlapping level, or the list length when every level overlaps);
when such a level exists the object is inserted exactly there. -/
def placeSpecFF (o : Obj) (levels : List (List Obj)) :
    Except String (Option (List (List Obj))) :=
  let i := (levels.takeWhile fun L => levelOverlaps L o.start o.stop).length
  match levels[i]? with
  | none => .ok none
  | some L =>
    match addi L o with
    | .error e => .error e
    | .ok L2 => .ok (some (levels.set i L2))

theorem placeInLevels_eq_spec (o : Obj) :
    ∀ levels, placeInLevels o levels = placeSpecFF o levels := by
  intro levels
  induction levels with
  | nil => rfl
  | cons L rest ih =>
    by_cases hov : levelOverlaps L o.start o.stop
    · simp only [placeInLevels, placeSpecFF, List.takeWhile_cons, hov, if_true, ih,
        List.length_cons, List.getElem?_cons_succ, List.set_cons_succ]
      cases hres : rest[(rest.takeWhile fun M => levelOverlaps M o.start o.stop).length]? with
      | none => rfl
      | some M => cases hadd : addi M o <;> simp [hadd]
    · rw [Bool.not_eq_true] at hov
      simp only [placeInLevels, placeSpecFF, List.takeWhile_cons, hov,
        Bool.false_eq_true, if_false, List.length_nil, List.getElem?_cons_zero,
        List.set_cons_zero]

theorem processOrder_sorted (objs : List Obj) :
    (processOrder objs).Sorted keyGe :=
  List.pairwise_reverse.mpr (List.sorted_insertionSort keyLe objs)

theorem processOrderBase_sorted (objs : List Obj) :
    (processOrderBase objs).Sorted heightGe :=
  List.pairwise_reverse.mpr (List.sorted_insertionSort heightLe objs)

theorem processOrder_perm (objs : List Obj) : (processOrder objs).Perm objs :=
  (List.reverse_perm _).trans (List.perm_insertionSort keyLe objs)

theorem processOrderBase_perm (objs : List Obj) : (processOrderBase objs).Perm objs :=
  (List.reverse_perm _).trans (List.perm_insertionSort heightLe objs)

/-- C4 (amended): the feature.py packer processes its input as a
permutation sorted by decreasing height with ties broken by decreasing
span, while the annotation/base.py packer sorts by decreasing height
only; both place each object into the first existing level (in
creation order) whose occupancy does not overlap the span of the object,
and append a new level containing only the object when no existing
level accepts it. -/
theorem C4_order_and_first_fit (objs : List Obj) (o : Obj)
    (levels : List (List Obj)) (hts : List Rat) :
    ((processOrder objs).Perm objs ∧ (processOrder objs).Sorted keyGe) ∧
    ((processOrderBase objs).Perm objs ∧ (processOrderBase objs).Sorted heightGe) ∧
    placeInLevels o levels = placeSpecFF o levels ∧
    (o.start < o.stop → placeInLevels o levels = .ok none →
      packStep (levels, hts) o = .ok (levels ++ [[o]], hts ++ [o.height])) := by
  refine ⟨⟨processOrder_perm objs, processOrder_sorted objs⟩,
    ⟨processOrderBase_perm objs, processOrderBase_sorted objs⟩,
    placeInLevels_eq_spec o levels, fun hlt hnone => ?_⟩
  unfold packStep
  rw [hnone]
  simp only [fromTuplesLevel, if_neg (not_le.mpr hlt)]

/-- Counterexample for C4 as stated: with two intervals of equal height
and different spans, pack_ffdh (annotation/base.py) processes the
shorter span first, so its processing order is not sorted by decreasing
span on height ties; _pack_ffdh (feature.py) does implement the
tie-break. -/
theorem C4_counterexample :
    processOrderBase [⟨0, 0, 10, 1⟩, ⟨1, 0, 2, 1⟩] =
      [⟨1, 0, 2, 1⟩, ⟨0, 0, 10, 1⟩] ∧
    ¬ (processOrderBase [⟨0, 0, 10, 1⟩, ⟨1, 0, 2, 1⟩]).Sorted keyGe ∧
    processOrder [⟨0, 0, 10, 1⟩, ⟨1, 0, 2, 1⟩] =
      [⟨0, 0, 10, 1⟩, ⟨1, 0, 2, 1⟩] := by
  refine ⟨by decide, ?_, by decide⟩
  intro h
  have : keyGe ⟨1, 0, 2, 1⟩ ⟨0, 0, 10, 1⟩ := by
    have h2 := h
    rw [show processOrderBase [⟨0, 0, 10, 1⟩, ⟨1, 0, 2, 1⟩] =
      [⟨1, 0, 2, 1⟩, ⟨0, 0, 10, 1⟩] from by decide] at h2
    exact (List.pairwise_cons.mp h2).1 _ (List.mem_singleton.mpr rfl)
  exact absurd this (by decide)

/-- Witness for C4 at a concrete input: one object, one fully
overlapping level, so a new level is created. -/
theorem C4_order_and_first_fit_witness :
    ((processOrder [⟨0, 0, 10, 1⟩, ⟨1, 0, 2, 1⟩]).Perm [⟨0, 0, 10, 1⟩, ⟨1, 0, 2, 1⟩] ∧
      (processOrder [⟨0, 0, 10, 1⟩, ⟨1, 0, 2, 1⟩]).Sorted keyGe) ∧
    packStep ([[⟨1, 0, 5, 1⟩]], [1]) ⟨0, 0, 10, 1⟩ =
      .ok ([[⟨1, 0, 5, 1⟩], [⟨0, 0, 10, 1⟩]], [1, 1]) := by
  have h := C4_order_and_first_fit [⟨0, 0, 10, 1⟩, ⟨1, 0, 2, 1⟩] ⟨0, 0, 10, 1⟩
    [[⟨1, 0, 5, 1⟩]] [1]
  exact ⟨h.1, h.2.2.2 (by decide) (by decide)⟩

/-! ## Offset formulas (C2, C3) -/

theorem length_cumsum (l : List Rat) : (cumsum l).length = l.length := by
  unfold cumsum
  rw [List.length_tail, List.length_scanl]
  omega

theorem scanl_add_getD :
    ∀ (t : List Rat) (a : Rat) (k : Nat), k < t.length + 1 →
      (List.scanl (· + ·) a t).getD k 0 = a + (t.take k).sum := by
  intro t
  induction t with
  | nil =>
    intro a k hk
    have : k = 0 := by simpa using hk
    subst this
    simp [List.scanl]
  | cons x xs ih =>
    intro a k hk
    cases k with
    | zero => simp [List.scanl]
    | succ k =>
      rw [List.scanl_cons, List.singleton_append, List.getD_cons_succ]
      rw [ih (a + x) k (by simpa using hk)]
      rw [List.take_succ_cons, List.sum_cons]
      ring

theorem cumsum_getD (l : List Rat) (k : Nat) (hk : k < l.length) :
    (cumsum l).getD k 0 = (l.take (k + 1)).sum := by
  unfold cumsum
  cases l with
  | nil => simp at hk
  | cons x xs =>
    rw [List.scanl_cons, List.singleton_append, List.tail_cons]
    rw [scanl_add_getD xs (0 + x) k (by simpa using hk)]
    rw [List.take_succ_cons, List.sum_cons]
    ring

theorem mapIdx_getD (f : Nat → Rat → Rat) (l : List Rat) (k : Nat) (hk : k < l.length) :
    (l.mapIdx f).getD k 0 = f k (l.getD k 0) := by
  have hk2 : k < (l.mapIdx f).length := by rw [List.length_mapIdx]; exact hk
  rw [List.getD_eq_getElem _ _ hk2, List.getD_eq_getElem _ _ hk]
  have h := List.get_mapIdx l f k hk
  simpa [List.get_eq_getElem] using h

theorem offsetsA_getD (hs : List Rat) (s : Rat) (k : Nat) (hk : k < hs.length) :
    (offsetsA hs s).getD k 0 =
      (hs.take (k + 1)).sum - hs.headD 0 + ((k : Rat) + 1) * s := by
  unfold offsetsA
  rw [mapIdx_getD _ _ k (by rw [length_cumsum]; exact hk), cumsum_getD hs k hk]

theorem stackedOffsets_getD (hs : List Rat) (s : Rat) (k : Nat) (hk : k < hs.length) :
    (stackedOffsets hs s).getD k 0 = (hs.take k).sum + ((k : Rat) + 1) * s := by
  unfold stackedOffsets
  have hpos : 0 < hs.length := by omega
  have hlen : k < (0 :: (cumsum hs).dropLast).length := by
    simp only [List.length_cons, List.length_dropLast, length_cumsum]
    omega
  rw [mapIdx_getD _ _ k hlen]
  congr 1
  cases k with
  | zero => simp
  | succ k =>
    rw [List.getD_cons_succ]
    have hk2 : k < (cumsum hs).dropLast.length := by
      simp only [List.length_dropLast, length_cumsum]
      omega
    rw [List.getD_eq_getElem _ _ hk2, List.getElem_dropLast]
    have h := cumsum_getD hs k (by omega)
    rw [List.getD_eq_getElem _ _ (by rw [length_cumsum]; omega)] at h
    exact h

theorem packFFDH_single {o : Obj} (hlt : o.start < o.stop) :
    packFFDH [o] = .ok ([[o]], [o.height]) := by
  unfold packFFDH processOrder
  simp [List.insertionSort, List.orderedInsert, packLoop, packStep, placeInLevels,
    fromTuplesLevel, not_le.mpr hlt]

theorem packFFDHBase_single {o : Obj} (hlt : o.start < o.stop) :
    packFFDHBase [o] = .ok ([[o]], [o.height]) := by
  unfold packFFDHBase processOrderBase
  simp [List.insertionSort, List.orderedInsert, packLoop, packStep, placeInLevels,
    fromTuplesLevel, not_le.mpr hlt]

theorem offsetsA_single (h s : Rat) : offsetsA [h] s = [s] := by
  simp [offsetsA, cumsum, List.scanl]

theorem stackedOffsets_single (h s : Rat) : stackedOffsets [h] s = [s] := by
  simp [stackedOffsets, cumsum, List.scanl]

/-- C2 (amended): in both stacking functions the offset of the first
level is the spacing constant, not 0; in _stack of feature.py each
subsequent offset adds the height of the CURRENT level plus spacing,
in StackedTrack._stack of annotation/base.py it adds the height of the
PREVIOUS level plus spacing; packing a single interval yields exactly
one level with offset equal to the spacing. -/
theorem C2_offsets_amended (hs : List Rat) (s : Rat) (k : Nat) :
    (hs ≠ [] →
      (offsetsA hs s).getD 0 0 = s ∧ (stackedOffsets hs s).getD 0 0 = s) ∧
    (k + 1 < hs.length →
      (offsetsA hs s).getD (k + 1) 0 =
        (offsetsA hs s).getD k 0 + hs.getD (k + 1) 0 + s ∧
      (stackedOffsets hs s).getD (k + 1) 0 =
        (stackedOffsets hs s).getD k 0 + hs.getD k 0 + s) ∧
    (∀ o : Obj, o.start < o.stop →
      featureStack [o] s = .ok [(o.idx, s)] ∧
      stackedStack [o] s = .ok [(o.idx, s)]) := by
  refine ⟨fun hne => ?_, fun hk1 => ?_, fun o hlt => ?_⟩
  · obtain ⟨x, xs, rfl⟩ := List.exists_cons_of_ne_nil hne
    have hp : 0 < (x :: xs).length := by simp
    rw [offsetsA_getD _ s 0 hp, stackedOffsets_getD _ s 0 hp]
    simp
  · have hk : k < hs.length := by omega
    constructor
    · rw [offsetsA_getD hs s (k + 1) hk1, offsetsA_getD hs s k hk,
        List.sum_take_succ hs (k + 1) hk1,
        ← List.getD_eq_getElem hs 0 hk1]
      push_cast
      ring
    · rw [stackedOffsets_getD hs s (k + 1) hk1, stackedOffsets_getD hs s k hk,
        List.sum_take_succ hs k hk,
        ← List.getD_eq_getElem hs 0 hk]
      push_cast
      ring
  · constructor
    · unfold featureStack
      rw [packFFDH_single hlt]
      simp [assignRows, offsetsA_single]
    · unfold stackedStack
      rw [packFFDHBase_single hlt]
      simp [assignRows, stackedOffsets_single]

/-- Counterexample for C2 as stated: packing a single interval with the
default spacing of feature.py (0.05) yields offset 0.05, not 0. -/
theorem C2_counterexample :
    featureStack [⟨0, 0, 10, 1⟩] (5 / 100) = .ok [(0, 5 / 100)] ∧
    ((5 : Rat) / 100 ≠ 0) := by
  constructor
  · unfold featureStack
    rw [packFFDH_single (o := ⟨0, 0, 10, 1⟩) (by norm_num)]
    simp [assignRows, offsetsA_single]
  · norm_num

/-- Witness for C2 (amended) at a concrete input. -/
theorem C2_offsets_amended_witness :
    ((offsetsA [2, 1] 1).getD 0 0 = 1 ∧ (stackedOffsets [2, 1] 1).getD 0 0 = 1) ∧
    ((offsetsA [2, 1] 1).getD 1 0 =
        (offsetsA [2, 1] 1).getD 0 0 + ([2, 1] : List Rat).getD 1 0 + 1 ∧
      (stackedOffsets [2, 1] 1).getD 1 0 =
        (stackedOffsets [2, 1] 1).getD 0 0 + ([2, 1] : List Rat).getD 0 0 + 1) ∧
    (featureStack [⟨5, 0, 10, 3⟩] 1 = .ok [(5, 1)] ∧
      stackedStack [⟨5, 0, 10, 3⟩] 1 = .ok [(5, 1)]) := by
  have h := C2_offsets_amended [2, 1] 1 0
  exact ⟨h.1 (by decide), h.2.1 (by decide), h.2.2 ⟨5, 0, 10, 3⟩ (by decide)⟩

/-- C3 (amended): the two offset-accumulation formulas are NOT
identical in general: at level k they differ by exactly
height(k) - height(0), so they agree at a level precisely when the
height of that level equals the height of the first level (in
particular for uniform heights). -/
theorem C3_formulas_amended (hs : List Rat) (s : Rat) (k : Nat) (hk : k < hs.length) :
    (offsetsA hs s).getD k 0 - (stackedOffsets hs s).getD k 0 =
      hs.getD k 0 - hs.headD 0 := by
  rw [offsetsA_getD hs s k hk, stackedOffsets_getD hs s k hk,
    List.sum_take_succ hs k hk, ← List.getD_eq_getElem hs 0 hk]
  ring

/-- Counterexample for C3 as stated: with level heights [2, 1] and
spacing 1 the two formulas give [1, 3] and [1, 4]. -/
theorem C3_counterexample :
    (offsetsA [2, 1] 1).getD 1 0 = 3 ∧ (stackedOffsets [2, 1] 1).getD 1 0 = 4 ∧
    offsetsA [2, 1] 1 ≠ stackedOffsets [2, 1] 1 := by
  have h1 : (offsetsA [2, 1] 1).getD 1 0 = 3 := by
    rw [offsetsA_getD [2, 1] 1 1 (by norm_num)]
    norm_num
  have h2 : (stackedOffsets [2, 1] 1).getD 1 0 = 4 := by
    rw [stackedOffsets_getD [2, 1] 1 1 (by norm_num)]
    norm_num
  refine ⟨h1, h2, fun heq => ?_⟩
  rw [heq, h2] at h1
  norm_num at h1

/-- Witness for C3 (amended) at a concrete input. -/
theorem C3_formulas_amended_witness :
    (offsetsA [2, 1] 1).getD 1 0 - (stackedOffsets [2, 1] 1).getD 1 0 =
      ([2, 1] : List Rat).getD 1 0 - ([2, 1] : List Rat).headD 0 :=
  C3_formulas_amended [2, 1] 1 1 (by decide)

/-! ## Error behaviour and the merge utility (C6, C8, C9, C10) -/

/-- C6: concrete behaviour of merge_intervals on the three reference
inputs (overlapping pair merged, disjoint intervals sorted and kept,
empty input giving the empty sequence). -/
theorem C6_merge_intervals :
    merge_intervals [(10, 20), (30, 40), (15, 25)] = [(10, 25), (30, 40)] ∧
    merge_intervals [(10, 20), (30, 40), (5, 9)] = [(5, 9), (10, 20), (30, 40)] ∧
    merge_intervals [] = [] := by
  refine ⟨by decide, by decide, rfl⟩

theorem placeInLevels_ok {o : Obj} (hlt : o.start < o.stop) :
    ∀ levels, ∃ r, placeInLevels o levels = .ok r := by
  intro levels
  induction levels with
  | nil => exact ⟨none, rfl⟩
  | cons L rest ih =>
    by_cases hov : levelOverlaps L o.start o.stop
    · obtain ⟨r, hr⟩ := ih
      cases r with
      | none => exact ⟨none, by simp [placeInLevels, hov, hr]⟩
      | some rest2 => exact ⟨some (L :: rest2), by simp [placeInLevels, hov, hr]⟩
    · refine ⟨some ((L ++ [o]) :: rest), ?_⟩
      rw [Bool.not_eq_true] at hov
      simp [placeInLevels, hov, addi, not_le.mpr hlt]

theorem packStep_ok {o : Obj} (hlt : o.start < o.stop)
    (st : List (List Obj) × List Rat) : ∃ st2, packStep st o = .ok st2 := by
  obtain ⟨r, hr⟩ := placeInLevels_ok hlt st.1
  cases r with
  | some levels2 => exact ⟨(levels2, st.2), by simp [packStep, hr]⟩
  | none =>
    exact ⟨(st.1 ++ [[o]], st.2 ++ [o.height]),
      by simp [packStep, hr, fromTuplesLevel, not_le.mpr hlt]⟩

theorem packLoop_ok :
    ∀ l : List Obj, (∀ o ∈ l, o.start < o.stop) →
      ∀ st, ∃ st2, packLoop l st = .ok st2 := by
  intro l
  induction l with
  | nil => exact fun _ st => ⟨st, rfl⟩
  | cons o rest ih =>
    intro h st
    obtain ⟨stmid, hmid⟩ := packStep_ok (h o (by simp)) st
    obtain ⟨st2, h2⟩ := ih (fun p hp => h p (by simp [hp])) stmid
    exact ⟨st2, by simp [packLoop, hmid, h2]⟩

/-- C8 (amended): the packer performs no input validation and defines
no InvalidIntervalError; for every input whose intervals all satisfy
start < end it succeeds (whatever the heights are), while an interval
with start >= end makes the interval tree raise ValueError during
placement, not before any placement work. -/
theorem C8_no_validation (objs : List Obj) (h : ∀ o ∈ objs, o.start < o.stop) :
    ∃ res, packFFDH objs = .ok res := by
  apply packLoop_ok
  intro o ho
  exact h o ((processOrder_perm objs).mem_iff.mp ho)

/-- Counterexample for C8 as stated: a malformed interval of height -1
is packed without any error being raised, and a well-formed zero-length
interval (start = end) makes the packer fail with the ValueError of
the interval tree. -/
theorem C8_counterexample :
    packFFDH [⟨0, 0, 10, -1⟩] = .ok ([[⟨0, 0, 10, -1⟩]], [-1]) ∧
    packFFDH [⟨1, 5, 5, 1⟩] = .error "ValueError" := by
  constructor
  · exact packFFDH_single (by decide)
  · unfold packFFDH processOrder
    simp [List.insertionSort, List.orderedInsert, packLoop, packStep,
      placeInLevels, fromTuplesLevel]

/-- Witness for C8 (amended) at a concrete input. -/
theorem C8_no_validation_witness :
    ∃ res, packFFDH [⟨0, 0, 10, 1⟩] = .ok res :=
  C8_no_validation [⟨0, 0, 10, 1⟩] (by decide)

/-- C9: the packers themselves return empty levels and heights on empty
input, and StackedTrack._stack yields no pairs without error, but the
_stack of feature.py fails on empty input with IndexError at the
expression level_heights[0]. -/
theorem C9_empty_input :
    packFFDH [] = .ok ([], []) ∧
    packFFDHBase [] = .ok ([], []) ∧
    (∀ s : Rat, featureStack [] s = .error "IndexError") ∧
    (∀ s : Rat, stackedStack [] s = .ok []) :=
  ⟨rfl, rfl, fun _ => rfl, fun _ => rfl⟩

/-- C10: with no grouping column the spacing argument of stack is not
forwarded to _stack, so any two spacing values give identical results,
namely the result of _stack at its default spacing 0.05. -/
theorem C10_spacing_ignored_ungrouped (data : List Row) (s1 s2 : Rat) :
    stack data false s1 = stack data false s2 ∧
    stack data false s1 = featureStack (data.map Row.toObj) (5 / 100) :=
  ⟨rfl, rfl⟩

/-! ## Genomic interval index (C7) -/

theorem keys_dictSet (d : List (String × List GTuple)) (k : String) (v : List GTuple)
    (c : String) :
    (∃ kv ∈ dictSet d k v, kv.1 = c) ↔ (k = c ∨ ∃ kv ∈ d, kv.1 = c) := by
  induction d with
  | nil => simp [dictSet]
  | cons p rest ih =>
    obtain ⟨k2, v2⟩ := p
    by_cases hk : k = k2
    · subst hk
      have hd : dictSet ((k, v2) :: rest) k v = (k, v) :: rest := by
        simp [dictSet]
      rw [hd]
      simp only [List.mem_cons]
      constructor
      · rintro ⟨kv, hkv | hkv, hc⟩
        · subst hkv; exact Or.inl hc
        · exact Or.inr ⟨kv, Or.inr hkv, hc⟩
      · rintro (h | ⟨kv, hkv | hkv, hc⟩)
        · exact ⟨(k, v), Or.inl rfl, h⟩
        · subst hkv; exact ⟨(k, v), Or.inl rfl, hc⟩
        · exact ⟨kv, Or.inr hkv, hc⟩
    · have hd : dictSet ((k2, v2) :: rest) k v = (k2, v2) :: dictSet rest k v := by
        simp [dictSet, hk]
      rw [hd]
      simp only [List.mem_cons]
      constructor
      · rintro ⟨kv, hkv | hkv, hc⟩
        · subst hkv
          exact Or.inr ⟨(k2, v2), Or.inl rfl, hc⟩
        · rcases ih.mp ⟨kv, hkv, hc⟩ with h | ⟨kv2, hkv2, hc2⟩
          · exact Or.inl h
          · exact Or.inr ⟨kv2, Or.inr hkv2, hc2⟩
      · rintro (h | ⟨kv, hkv | hkv, hc⟩)
        · obtain ⟨kv, hkv, hc⟩ := ih.mpr (Or.inl h)
          exact ⟨kv, Or.inr hkv, hc⟩
        · subst hkv
          exact ⟨(k2, v2), Or.inl rfl, hc⟩
        · obtain ⟨kv2, hkv2, hc2⟩ := ih.mpr (Or.inr ⟨kv, hkv, hc⟩)
          exact ⟨kv2, Or.inr hkv2, hc2⟩

theorem keys_foldl_dictSet (gs : List (String × List GTuple)) :
    ∀ (d : List (String × List GTuple)) (c : String),
      (∃ kv ∈ gs.foldl (fun d p => dictSet d p.1 p.2) d, kv.1 = c) ↔
        ((∃ p ∈ gs, p.1 = c) ∨ ∃ kv ∈ d, kv.1 = c) := by
  induction gs with
  | nil => simp
  | cons p rest ih =>
    intro d c
    rw [List.foldl_cons, ih, keys_dictSet]
    constructor
    · rintro (⟨q, hq, hc⟩ | h | h)
      · exact Or.inl ⟨q, List.mem_cons_of_mem p hq, hc⟩
      · exact Or.inl ⟨p, List.mem_cons_self p rest, h⟩
      · exact Or.inr h
    · rintro (⟨q, hq, hc⟩ | h)
      · rcases List.mem_cons.mp hq with rfl | hq2
        · exact Or.inr (Or.inl hc)
        · exact Or.inl ⟨q, hq2, hc⟩
      · exact Or.inr (Or.inr h)

theorem keys_groupByChrom (t : List (String × GTuple)) (c : String) :
    (∃ p ∈ groupByChrom t, p.1 = c) ↔ ∃ x ∈ t, x.1 = c := by
  induction t with
  | nil => simp [groupByChrom]
  | cons x rest ih =>
    obtain ⟨cx, tx⟩ := x
    cases hg : groupByChrom rest with
    | nil =>
      rw [hg] at ih
      have hrest : ¬ ∃ x ∈ rest, x.1 = c := by
        rw [← ih]; simp
      simp only [groupByChrom, hg]
      constructor
      · rintro ⟨p, hp, hc⟩
        rw [List.mem_singleton] at hp
        subst hp
        exact ⟨(cx, tx), List.mem_cons_self _ _, hc⟩
      · rintro ⟨y, hy, hc⟩
        rcases List.mem_cons.mp hy with rfl | hy2
        · exact ⟨(cx, [tx]), List.mem_singleton.mpr rfl, hc⟩
        · exact absurd ⟨y, hy2, hc⟩ hrest
    | cons g gs =>
      obtain ⟨c2, gl⟩ := g
      rw [hg] at ih
      by_cases hc2 : cx = c2
      · simp only [groupByChrom, hg, if_pos hc2]
        constructor
        · rintro ⟨p, hp, hc⟩
          rcases List.mem_cons.mp hp with rfl | hp2
          · exact ⟨(cx, tx), List.mem_cons_self _ _, hc⟩
          · obtain ⟨y, hy, hyc⟩ := ih.mp ⟨p, List.mem_cons_of_mem _ hp2, hc⟩
            exact ⟨y, List.mem_cons_of_mem _ hy, hyc⟩
        · rintro ⟨y, hy, hc⟩
          rcases List.mem_cons.mp hy with rfl | hy2
          · exact ⟨(cx, tx :: gl), List.mem_cons_self _ _, hc⟩
          · obtain ⟨p, hp, hpc⟩ := ih.mpr ⟨y, hy2, hc⟩
            rcases List.mem_cons.mp hp with rfl | hp2
            · refine ⟨(cx, tx :: gl), List.mem_cons_self _ _, ?_⟩
              show cx = c
              rw [hc2]
              exact hpc
            · exact ⟨p, List.mem_cons_of_mem _ hp2, hpc⟩
      · simp only [groupByChrom, hg, if_neg hc2]
        constructor
        · rintro ⟨p, hp, hc⟩
          rcases List.mem_cons.mp hp with rfl | hp2
          · exact ⟨(cx, tx), List.mem_cons_self _ _, hc⟩
          · obtain ⟨y, hy, hyc⟩ := ih.mp ⟨p, hp2, hc⟩
            exact ⟨y, List.mem_cons_of_mem _ hy, hyc⟩
        · rintro ⟨y, hy, hc⟩
          rcases List.mem_cons.mp hy with rfl | hy2
          · exact ⟨(cx, [tx]), List.mem_cons_self _ _, hc⟩
          · obtain ⟨p, hp, hpc⟩ := ih.mpr ⟨y, hy2, hc⟩
            exact ⟨p, List.mem_cons_of_mem _ hp, hpc⟩

theorem keys_fromTuples (tuples : List (String × GTuple)) (c : String) :
    (∃ kv ∈ fromTuples tuples, kv.1 = c) ↔ c ∈ tuples.map (·.1) := by
  unfold fromTuples
  rw [keys_foldl_dictSet, keys_groupByChrom]
  simp [List.mem_map]

/-- C7 (amended): searching the genomic index raises KeyError exactly
when the queried chromosome is absent from the stored tuples (a
chromosome with no stored intervals is never a key of the tree dict);
for any stored chromosome the search returns a result and never
raises. -/
theorem C7_search_unknown (tuples : List (String × GTuple)) (c : String) (b e0 : Int) :
    gitSearch (fromTuples tuples) c b e0 = .error "KeyError" ↔
      c ∉ tuples.map (·.1) := by
  unfold gitSearch
  cases hf : (fromTuples tuples).find? (fun kv => decide (kv.1 = c)) with
  | none =>
    have hno := List.find?_eq_none.mp hf
    simp only [decide_eq_true_eq] at hno
    constructor
    · intro _ hc
      obtain ⟨kv, hkv, hkvc⟩ := (keys_fromTuples tuples c).mpr hc
      exact hno kv hkv hkvc
    · intro _
      rfl
  | some kv =>
    have hmem := List.mem_of_find?_eq_some hf
    have hkey := List.find?_some hf
    simp only [decide_eq_true_eq] at hkey
    constructor
    · intro h
      exact absurd h (by simp)
    · intro hc
      exact absurd ((keys_fromTuples tuples c).mp ⟨kv, hmem, hkey⟩) hc

/-- Counterexample for C7 as stated: a chromosome with no stored
intervals makes search raise KeyError instead of returning an empty
result. -/
theorem C7_counterexample :
    gitSearch (fromTuples [("1", (10, 20, 0))]) "2" 0 100 = .error "KeyError" := by
  rfl

/-! ## Grouped stacking (C5) -/

theorem placeInLevels_mem {o : Obj} :
    ∀ {levels levels2 : List (List Obj)},
      placeInLevels o levels = .ok (some levels2) →
      (∃ L ∈ levels2, o ∈ L) ∧
        (∀ p : Obj, (∃ L ∈ levels, p ∈ L) → ∃ L ∈ levels2, p ∈ L) ∧
        levels2.length = levels.length := by
  intro levels
  induction levels with
  | nil => intro levels2 h; simp [placeInLevels] at h
  | cons L rest ih =>
    intro levels2 h
    simp only [placeInLevels] at h
    by_cases hov : levelOverlaps L o.start o.stop
    · rw [if_pos hov] at h
      cases hre : placeInLevels o rest with
      | error e => rw [hre] at h; exact absurd h (by simp)
      | ok oval =>
        cases oval with
        | none => rw [hre] at h; exact absurd h (by simp)
        | some rest2 =>
          rw [hre] at h
          simp only [Except.ok.injEq, Option.some.injEq] at h
          subst h
          obtain ⟨⟨M, hM, hoM⟩, hpres, hlen⟩ := ih hre
          refine ⟨⟨M, List.mem_cons_of_mem _ hM, hoM⟩, ?_, by simp [hlen]⟩
          rintro p ⟨N, hN, hpN⟩
          rcases List.mem_cons.mp hN with rfl | hN2
          · exact ⟨N, List.mem_cons_self _ _, hpN⟩
          · obtain ⟨N2, hN2b, hpN2⟩ := hpres p ⟨N, hN2, hpN⟩
            exact ⟨N2, List.mem_cons_of_mem _ hN2b, hpN2⟩
    · rw [if_neg hov] at h
      cases hadd : addi L o with
      | error e => rw [hadd] at h; exact absurd h (by simp)
      | ok L2 =>
        rw [hadd] at h
        simp only [Except.ok.injEq, Option.some.injEq] at h
        subst h
        obtain ⟨hL2, _⟩ := addi_ok hadd
        subst hL2
        refine ⟨⟨L ++ [o], List.mem_cons_self _ _, by simp⟩, ?_, by simp⟩
        rintro p ⟨N, hN, hpN⟩
        rcases List.mem_cons.mp hN with rfl | hN2
        · exact ⟨N ++ [o], List.mem_cons_self _ _, by simp [hpN]⟩
        · exact ⟨N, List.mem_cons_of_mem _ hN2, hpN⟩

theorem packStep_mem {st st2 : List (List Obj) × List Rat} {o : Obj}
    (h : packStep st o = .ok st2) :
    (∃ L ∈ st2.1, o ∈ L) ∧
      (∀ p : Obj, (∃ L ∈ st.1, p ∈ L) → ∃ L ∈ st2.1, p ∈ L) ∧
      (st.1.length = st.2.length → st2.1.length = st2.2.length) := by
  unfold packStep at h
  cases hp : placeInLevels o st.1 with
  | error e => rw [hp] at h; exact absurd h (by simp)
  | ok oval =>
    cases oval with
    | some levels2 =>
      rw [hp] at h
      simp only [Except.ok.injEq] at h
      subst h
      obtain ⟨hin, hpres, hlen⟩ := placeInLevels_mem hp
      exact ⟨hin, hpres, fun he => by simp [hlen, he]⟩
    | none =>
      rw [hp] at h
      cases hf : fromTuplesLevel o with
      | error e => rw [hf] at h; exact absurd h (by simp)
      | ok newLevel =>
        rw [hf] at h
        simp only [Except.ok.injEq] at h
        subst h
        obtain ⟨hN, _⟩ := fromTuplesLevel_ok hf
        subst hN
        refine ⟨⟨[o], by simp, by simp⟩, ?_, fun he => by simp [he]⟩
        rintro p ⟨N, hN2, hpN⟩
        exact ⟨N, by simp [hN2], hpN⟩

theorem packLoop_mem :
    ∀ {l : List Obj} {st st2 : List (List Obj) × List Rat},
      packLoop l st = .ok st2 →
      (∀ p : Obj, ((∃ L ∈ st.1, p ∈ L) ∨ p ∈ l) → ∃ L ∈ st2.1, p ∈ L) ∧
        (st.1.length = st.2.length → st2.1.length = st2.2.length) := by
  intro l
  induction l with
  | nil =>
    intro st st2 h
    simp only [packLoop, Except.ok.injEq] at h
    subst h
    exact ⟨fun p hp => by rcases hp with hp | hp; exact hp; simp at hp, id⟩
  | cons o rest ih =>
    intro st st2 h
    simp only [packLoop] at h
    cases hs : packStep st o with
    | error e => rw [hs] at h; exact absurd h (by simp)
    | ok stmid =>
      rw [hs] at h
      obtain ⟨hin, hpres, hlen⟩ := packStep_mem hs
      obtain ⟨hmem2, hlen2⟩ := ih h
      refine ⟨?_, fun he => hlen2 (hlen he)⟩
      rintro p (hp | hp)
      · exact hmem2 p (Or.inl (hpres p hp))
      · rcases List.mem_cons.mp hp with rfl | hp2
        · exact hmem2 p (Or.inl hin)
        · exact hmem2 p (Or.inr hp2)

theorem length_offsetsA (hs : List Rat) (s : Rat) :
    (offsetsA hs s).length = hs.length := by
  unfold offsetsA
  rw [List.length_mapIdx, length_cumsum]

theorem assignRows_cons (L0 : List Obj) (rest : List (List Obj)) (y0 : Rat)
    (ys : List Rat) :
    assignRows (L0 :: rest) (y0 :: ys) =
      (L0.map fun o => (o.idx, y0)) ++ assignRows rest ys := by
  simp [assignRows]

theorem assignRows_mem :
    ∀ {levels : List (List Obj)} {offs : List Rat} {L : List Obj} {o : Obj},
      L ∈ levels → o ∈ L → levels.length ≤ offs.length →
      ∃ y, (o.idx, y) ∈ assignRows levels offs := by
  intro levels
  induction levels with
  | nil => intro offs L o hL; simp at hL
  | cons L0 rest ih =>
    intro offs L o hL ho hlen
    cases offs with
    | nil => simp at hlen
    | cons y0 ys =>
      rw [assignRows_cons]
      rcases List.mem_cons.mp hL with rfl | hL2
      · exact ⟨y0, List.mem_append_left _ (List.mem_map.mpr ⟨o, ho, rfl⟩)⟩
      · obtain ⟨y, hy⟩ := ih hL2 ho (by simpa using hlen)
        exact ⟨y, List.mem_append_right _ hy⟩

theorem featureStack_complete {objs : List Obj} {s : Rat} {out : List (Nat × Rat)}
    (h : featureStack objs s = .ok out) :
    ∀ o ∈ objs, ∃ y, (o.idx, y) ∈ out := by
  unfold featureStack at h
  cases hp : packFFDH objs with
  | error e => rw [hp] at h; exact absurd h (by simp)
  | ok st =>
    obtain ⟨levels, hts⟩ := st
    rw [hp] at h
    cases hts with
    | nil => exact absurd h (by simp)
    | cons h0 hrest =>
      simp only [Except.ok.injEq] at h
      subst h
      intro o ho
      unfold packFFDH at hp
      obtain ⟨hmem, hlen⟩ := packLoop_mem hp
      obtain ⟨L, hL, hoL⟩ :=
        hmem o (Or.inr ((processOrder_perm objs).symm.mem_iff.mp ho))
      refine assignRows_mem hL hoL ?_
      rw [length_offsetsA]
      exact le_of_eq (hlen rfl)

theorem mem_groupMembers {data : List Row} {k : Nat} {m : Row} :
    m ∈ groupMembers data k ↔ m ∈ data ∧ m.grp = k := by
  unfold groupMembers
  rw [List.mem_filter]
  simp

theorem grp_mem_groupKeys {data : List Row} {r : Row} (hr : r ∈ data) :
    r.grp ∈ groupKeys data := by
  unfold groupKeys
  rw [(List.perm_insertionSort _ _).mem_iff, List.mem_dedup]
  exact List.mem_map.mpr ⟨r, hr, rfl⟩

theorem repOf_idx (data : List Row) (k : Nat) : (repOf data k).idx = k := by
  unfold repOf
  cases hm : groupMembers data k with
  | nil => rfl
  | cons m ms => rfl

theorem foldl_min_le_init {α : Type} [LinearOrder α] :
    ∀ (l : List α) (a : α), l.foldl min a ≤ a := by
  intro l
  induction l with
  | nil => exact fun a => le_refl a
  | cons x xs ih => exact fun a => (ih (min a x)).trans (min_le_left a x)

theorem foldl_min_le_mem {α : Type} [LinearOrder α] :
    ∀ (l : List α) (a x : α), x ∈ l → l.foldl min a ≤ x := by
  intro l
  induction l with
  | nil => intro a x hx; simp at hx
  | cons y ys ih =>
    intro a x hx
    rcases List.mem_cons.mp hx with rfl | hx2
    · exact (foldl_min_le_init ys (min a x)).trans (min_le_right a x)
    · exact ih (min a y) x hx2

theorem foldl_min_mem {α : Type} [LinearOrder α] :
    ∀ (l : List α) (a : α), l.foldl min a = a ∨ l.foldl min a ∈ l := by
  intro l
  induction l with
  | nil => exact fun a => Or.inl rfl
  | cons y ys ih =>
    intro a
    rcases ih (min a y) with h | h
    · rcases le_total a y with hay | hya
      · refine Or.inl ?_
        rw [List.foldl_cons, h, min_eq_left hay]
      · refine Or.inr ?_
        rw [List.foldl_cons, h, min_eq_right hya]
        exact List.mem_cons_self y ys
    · refine Or.inr (List.mem_cons_of_mem y ?_)
      rw [List.foldl_cons]
      exact h

theorem le_foldl_max_init {α : Type} [LinearOrder α] :
    ∀ (l : List α) (a : α), a ≤ l.foldl max a := by
  intro l
  induction l with
  | nil => exact fun a => le_refl a
  | cons x xs ih => exact fun a => (le_max_left a x).trans (ih (max a x))

theorem le_foldl_max_mem {α : Type} [LinearOrder α] :
    ∀ (l : List α) (a x : α), x ∈ l → x ≤ l.foldl max a := by
  intro l
  induction l with
  | nil => intro a x hx; simp at hx
  | cons y ys ih =>
    intro a x hx
    rcases List.mem_cons.mp hx with rfl | hx2
    · exact (le_max_right a x).trans (le_foldl_max_init ys (max a x))
    · exact ih (max a y) x hx2

theorem foldl_max_mem {α : Type} [LinearOrder α] :
    ∀ (l : List α) (a : α), l.foldl max a = a ∨ l.foldl max a ∈ l := by
  intro l
  induction l with
  | nil => exact fun a => Or.inl rfl
  | cons y ys ih =>
    intro a
    rcases ih (max a y) with h | h
    · rcases le_total a y with hay | hya
      · refine Or.inr ?_
        rw [List.foldl_cons, h, max_eq_right hay]
        exact List.mem_cons_self y ys
      · refine Or.inl ?_
        rw [List.foldl_cons, h, max_eq_left hya]
    · refine Or.inr (List.mem_cons_of_mem y ?_)
      rw [List.foldl_cons]
      exact h

theorem repOf_bounds {data : List Row} {k : Nat} {r2 : Row}
    (h2 : r2 ∈ data) (hk : r2.grp = k) :
    (repOf data k).start ≤ r2.start ∧ r2.stop ≤ (repOf data k).stop ∧
      r2.height ≤ (repOf data k).height := by
  have hmem : r2 ∈ groupMembers data k := mem_groupMembers.mpr ⟨h2, hk⟩
  cases hm : groupMembers data k with
  | nil => rw [hm] at hmem; simp at hmem
  | cons m ms =>
    rw [hm] at hmem
    simp only [repOf, hm]
    rw [show (ms.foldl (fun acc r => min acc r.start) m.start) =
        (ms.map (fun r => r.start)).foldl min m.start from
        (List.foldl_map _ _ _ _).symm,
      show (ms.foldl (fun acc r => max acc r.stop) m.stop) =
        (ms.map (fun r => r.stop)).foldl max m.stop from
        (List.foldl_map _ _ _ _).symm,
      show (ms.foldl (fun acc r => max acc r.height) m.height) =
        (ms.map (fun r => r.height)).foldl max m.height from
        (List.foldl_map _ _ _ _).symm]
    rcases List.mem_cons.mp hmem with rfl | hmem2
    · exact ⟨foldl_min_le_init _ _, le_foldl_max_init _ _, le_foldl_max_init _ _⟩
    · exact ⟨foldl_min_le_mem _ _ _ (List.mem_map.mpr ⟨r2, hmem2, rfl⟩),
        le_foldl_max_mem _ _ _ (List.mem_map.mpr ⟨r2, hmem2, rfl⟩),
        le_foldl_max_mem _ _ _ (List.mem_map.mpr ⟨r2, hmem2, rfl⟩)⟩

theorem repOf_attained {data : List Row} {k : Nat}
    (hne : groupMembers data k ≠ []) :
    (∃ m ∈ groupMembers data k, (repOf data k).start = m.start) ∧
      (∃ m ∈ groupMembers data k, (repOf data k).stop = m.stop) ∧
      (∃ m ∈ groupMembers data k, (repOf data k).height = m.height) := by
  cases hm : groupMembers data k with
  | nil => exact absurd hm hne
  | cons m ms =>
    simp only [repOf, hm]
    refine ⟨?_, ?_, ?_⟩
    · rw [show (ms.foldl (fun acc r => min acc r.start) m.start) =
          (ms.map (fun r => r.start)).foldl min m.start from
          (List.foldl_map _ _ _ _).symm]
      rcases foldl_min_mem (ms.map fun r => r.start) m.start with h | h
      · exact ⟨m, List.mem_cons_self _ _, h⟩
      · obtain ⟨r3, hr3, hval⟩ := List.mem_map.mp h
        exact ⟨r3, List.mem_cons_of_mem _ hr3, hval.symm⟩
    · rw [show (ms.foldl (fun acc r => max acc r.stop) m.stop) =
          (ms.map (fun r => r.stop)).foldl max m.stop from
          (List.foldl_map _ _ _ _).symm]
      rcases foldl_max_mem (ms.map fun r => r.stop) m.stop with h | h
      · exact ⟨m, List.mem_cons_self _ _, h⟩
      · obtain ⟨r3, hr3, hval⟩ := List.mem_map.mp h
        exact ⟨r3, List.mem_cons_of_mem _ hr3, hval.symm⟩
    · rw [show (ms.foldl (fun acc r => max acc r.height) m.height) =
          (ms.map (fun r => r.height)).foldl max m.height from
          (List.foldl_map _ _ _ _).symm]
      rcases foldl_max_mem (ms.map fun r => r.height) m.height with h | h
      · exact ⟨m, List.mem_cons_self _ _, h⟩
      · obtain ⟨r3, hr3, hval⟩ := List.mem_map.mp h
        exact ⟨r3, List.mem_cons_of_mem _ hr3, hval.symm⟩

/-- C5: when a group column is present, stack aggregates each group to
a representative interval whose start is the minimum member start,
whose end is the maximum member end and whose height is the maximum
member height (all attained by members); the representatives are packed
with the spacing forwarded, and every member row of a group receives
exactly the y offset that the packer assigned to the representative
of that group (so all members of one group share one identical
offset). -/
theorem C5_grouped_broadcast (data : List Row) (s : Rat) (ys : List (Nat × Rat))
    (h : stackGrouped data s = .ok ys) :
    ∃ repYs, featureStack (repsOf data) s = .ok repYs ∧
      ∀ r ∈ data, ∃ y : Rat,
        (r.grp, y) ∈ repYs ∧
        (∀ r2 ∈ data, r2.grp = r.grp → (r2.idx, y) ∈ ys) ∧
        (∀ r2 ∈ data, r2.grp = r.grp →
          (repOf data r.grp).start ≤ r2.start ∧
            r2.stop ≤ (repOf data r.grp).stop ∧
            r2.height ≤ (repOf data r.grp).height) ∧
        (∃ m ∈ data, m.grp = r.grp ∧ (repOf data r.grp).start = m.start) ∧
        (∃ m ∈ data, m.grp = r.grp ∧ (repOf data r.grp).stop = m.stop) ∧
        (∃ m ∈ data, m.grp = r.grp ∧ (repOf data r.grp).height = m.height) := by
  unfold stackGrouped at h
  cases hf : featureStack (repsOf data) s with
  | error e => rw [hf] at h; exact absurd h (by simp)
  | ok repYs =>
    rw [hf] at h
    simp only [Except.ok.injEq] at h
    subst h
    refine ⟨repYs, rfl, fun r hr => ?_⟩
    have hkey : r.grp ∈ groupKeys data := grp_mem_groupKeys hr
    have hrep : repOf data r.grp ∈ repsOf data :=
      List.mem_map.mpr ⟨r.grp, hkey, rfl⟩
    obtain ⟨y0, hy0⟩ := featureStack_complete hf (repOf data r.grp) hrep
    rw [repOf_idx] at hy0
    obtain ⟨p, hp⟩ : ∃ p, repYs.find? (fun q => decide (q.1 = r.grp)) = some p := by
      cases hf2 : repYs.find? (fun q => decide (q.1 = r.grp)) with
      | some p => exact ⟨p, rfl⟩
      | none =>
        have hcontra := List.find?_eq_none.mp hf2 _ hy0
        simp at hcontra
    have hpmem := List.mem_of_find?_eq_some hp
    have hpkey := List.find?_some hp
    simp only [decide_eq_true_eq] at hpkey
    have hlook : lookupY repYs r.grp = p.2 := by
      simp [lookupY, hp]
    have hmemr : r ∈ groupMembers data r.grp := mem_groupMembers.mpr ⟨hr, rfl⟩
    obtain ⟨ha1, ha2, ha3⟩ := repOf_attained (List.ne_nil_of_mem hmemr)
    refine ⟨p.2, ?_, ?_, fun r2 hr2 hg => repOf_bounds hr2 hg, ?_, ?_, ?_⟩
    · rw [← hpkey]
      exact hpmem
    · intro r2 hr2 hg
      have hmap : (r2.idx, lookupY repYs r2.grp) ∈
          data.map fun q => (q.idx, lookupY repYs q.grp) :=
        List.mem_map.mpr ⟨r2, hr2, rfl⟩
      rw [hg, hlook] at hmap
      exact hmap
    · obtain ⟨m, hm, hv⟩ := ha1
      obtain ⟨hmd, hmg⟩ := mem_groupMembers.mp hm
      exact ⟨m, hmd, hmg, hv⟩
    · obtain ⟨m, hm, hv⟩ := ha2
      obtain ⟨hmd, hmg⟩ := mem_groupMembers.mp hm
      exact ⟨m, hmd, hmg, hv⟩
    · obtain ⟨m, hm, hv⟩ := ha3
      obtain ⟨hmd, hmg⟩ := mem_groupMembers.mp hm
      exact ⟨m, hmd, hmg, hv⟩

theorem repsOf_example :
    repsOf [⟨0, 7, 0, 10, 1⟩, ⟨1, 7, 20, 30, 1⟩, ⟨2, 7, 40, 50, 1⟩] =
      [⟨7, 0, 50, 1⟩] := by
  decide

theorem stackGrouped_example :
    stackGrouped [⟨0, 7, 0, 10, 1⟩, ⟨1, 7, 20, 30, 1⟩, ⟨2, 7, 40, 50, 1⟩] (5 / 100) =
      .ok [(0, 5 / 100), (1, 5 / 100), (2, 5 / 100)] := by
  have hfs : featureStack
      (repsOf [⟨0, 7, 0, 10, 1⟩, ⟨1, 7, 20, 30, 1⟩, ⟨2, 7, 40, 50, 1⟩]) (5 / 100) =
      .ok [(7, 5 / 100)] := by
    rw [repsOf_example]
    unfold featureStack
    rw [packFFDH_single (o := ⟨7, 0, 50, 1⟩) (by decide)]
    simp [assignRows, offsetsA_single]
  unfold stackGrouped
  rw [hfs]
  simp [lookupY]

/-- Witness for C5 at a concrete input: three non-overlapping members
of one group all receive the identical offset assigned to the bounding
representative of the group. -/
theorem C5_grouped_broadcast_witness :
    ∃ repYs,
      featureStack
          (repsOf [⟨0, 7, 0, 10, 1⟩, ⟨1, 7, 20, 30, 1⟩, ⟨2, 7, 40, 50, 1⟩])
          (5 / 100) = .ok repYs ∧
      ∀ r ∈ [(⟨0, 7, 0, 10, 1⟩ : Row), ⟨1, 7, 20, 30, 1⟩, ⟨2, 7, 40, 50, 1⟩],
        ∃ y : Rat,
          (r.grp, y) ∈ repYs ∧
          (∀ r2 ∈ [(⟨0, 7, 0, 10, 1⟩ : Row), ⟨1, 7, 20, 30, 1⟩, ⟨2, 7, 40, 50, 1⟩],
            r2.grp = r.grp →
              (r2.idx, y) ∈ [(0, 5 / 100), (1, 5 / 100), (2, 5 / 100)]) ∧
          (∀ r2 ∈ [(⟨0, 7, 0, 10, 1⟩ : Row), ⟨1, 7, 20, 30, 1⟩, ⟨2, 7, 40, 50, 1⟩],
            r2.grp = r.grp →
              (repOf [⟨0, 7, 0, 10, 1⟩, ⟨1, 7, 20, 30, 1⟩, ⟨2, 7, 40, 50, 1⟩]
                  r.grp).start ≤ r2.start ∧
                r2.stop ≤ (repOf [⟨0, 7, 0, 10, 1⟩, ⟨1, 7, 20, 30, 1⟩,
                  ⟨2, 7, 40, 50, 1⟩] r.grp).stop ∧
                r2.height ≤ (repOf [⟨0, 7, 0, 10, 1⟩, ⟨1, 7, 20, 30, 1⟩,
                  ⟨2, 7, 40, 50, 1⟩] r.grp).height) ∧
          (∃ m ∈ [(⟨0, 7, 0, 10, 1⟩ : Row), ⟨1, 7, 20, 30, 1⟩, ⟨2, 7, 40, 50, 1⟩],
            m.grp = r.grp ∧
              (repOf [⟨0, 7, 0, 10, 1⟩, ⟨1, 7, 20, 30, 1⟩, ⟨2, 7, 40, 50, 1⟩]
                r.grp).start = m.start) ∧
          (∃ m ∈ [(⟨0, 7, 0, 10, 1⟩ : Row), ⟨1, 7, 20, 30, 1⟩, ⟨2, 7, 40, 50, 1⟩],
            m.grp = r.grp ∧
              (repOf [⟨0, 7, 0, 10, 1⟩, ⟨1, 7, 20, 30, 1⟩, ⟨2, 7, 40, 50, 1⟩]
                r.grp).stop = m.stop) ∧
          (∃ m ∈ [(⟨0, 7, 0, 10, 1⟩ : Row), ⟨1, 7, 20, 30, 1⟩, ⟨2, 7, 40, 50, 1⟩],
            m.grp = r.grp ∧
              (repOf [⟨0, 7, 0, 10, 1⟩, ⟨1, 7, 20, 30, 1⟩, ⟨2, 7, 40, 50, 1⟩]
                r.grp).height = m.height) :=
  C5_grouped_broadcast
    [⟨0, 7, 0, 10, 1⟩, ⟨1, 7, 20, 30, 1⟩, ⟨2, 7, 40, 50, 1⟩] (5 / 100)
    [(0, 5 / 100), (1, 5 / 100), (2, 5 / 100)] stackGrouped_example

end Geneviz
